import Mathlib

/-!
Verification of the mix package manager core.

The repository carries two generations of the store code side by side:

* the PackageList generation (src/package.rs, src/action.rs): a plain
  record of packages with an invalidated flag, mutated through the
  Actionable trait;
* the Database generation (src/database.rs, src/selection.rs,
  src/operation.rs): a vector of shared package handles driven by
  Database.handle_operation.

Both are embedded below, in the namespaces Mix.PL and Mix.DB.  The
Database generation refers to a Package type (with fields name, version,
state, files), a Version type and a SelectResults type whose defining
source file is not present in the repository snapshot; those are
modelled from the specification and are marked as such in their doc
comments.  File contents are abstracted as lists of tokens; file-system
outcomes (missing file, permission failures and so on) are explicit
inputs to the load functions.
-/

namespace Mix

/-- A serialized byte stream, abstracted: the CBOR wire bytes are
modelled as a list of primitive tokens. -/
inductive Token where
  | nat (n : Nat)
  | str (s : String)
  | tag (t : Nat)
deriving DecidableEq

/-- The possible outcomes of opening the database file for reading,
mirroring the io ErrorKind cases the source distinguishes. -/
inductive OpenResult where
  | ok (content : List Token)
  | notFound
  | permissionDenied
  | otherIOFailure
deriving DecidableEq

/-- In-place mutation through a shared handle, modelled as replacing
the element at a position; positions past the end leave the list
unchanged. -/
def updateAt {α : Type} : List α → Nat → (α → α) → List α
  | [], _, _ => []
  | a :: as, 0, f => f a :: as
  | a :: as, n + 1, f => a :: updateAt as n f

namespace DB

/-- Modelled from the spec: the Version value type is re-exported from
src/lib.rs line 73 but its defining module is not in the snapshot.
Spec section 3: SemVer holds three non-negative integers, Unknown is the
absent version. -/
inductive Version where
  | Unknown
  | SemVer (major minor patch : Nat)
deriving DecidableEq

/-- Modelled from the spec: total order on versions.  Unknown is less
than every SemVer and equal only to Unknown; SemVer values compare
major, then minor, then patch, lexicographically. -/
def Version.cmp : Version → Version → Ordering
  | .Unknown, .Unknown => .eq
  | .Unknown, .SemVer _ _ _ => .lt
  | .SemVer _ _ _, .Unknown => .gt
  | .SemVer a b c, .SemVer d e f =>
      (compare a d).then ((compare b e).then (compare c f))

/-- Modelled from the spec: the InstallState of the Database generation
(src/selection.rs matches on InstallState.Uninstalled); spec section 3
names the variants Manual, Dependency and Uninstalled. -/
inductive InstallState where
  | Manual
  | Dependency
  | Uninstalled
deriving DecidableEq

/-- Modelled from the spec: the Package record of the Database
generation (name, version, state, files per spec section 3).  The
transient local_path field is omitted: it is never serialized and no
claim under verification mentions it. -/
structure Package where
  name : String
  version : Version
  state : InstallState
  files : List String
deriving DecidableEq

/-- Modelled from the spec: marking a package as manually installed
sets its state to Manual (called by the install arm of
Database.handle_operation). -/
def Package.mark_as_manually_installed (p : Package) : Package :=
  { p with state := .Manual }

/-- Modelled from the spec, section 4.6: removal only transitions state
to Uninstalled; every other field is preserved. -/
def Package.removePkg (p : Package) : Package :=
  { p with state := .Uninstalled }

/-- Modelled from the spec, section 4.4: Package.install places the
package files on disk; the store-visible fields of the record are not
changed by it (the state change is done separately by
mark_as_manually_installed in the caller). -/
def Package.installPkg (p : Package) : Package :=
  p

/-- Modelled from the spec, section 4.6: update recomputes the version;
no store-visible field change is specified for the stub in the source,
so the record is returned unchanged. -/
def Package.updatePkg (p : Package) : Package :=
  p

/-- Errors of the Database generation (src/error.rs, with the
PackageNotFound payload used by src/selection.rs). -/
inductive MixError where
  | packageNotFound (names : List String)
  | packageNotInstalled
  | fileNotFound (path : String)
  | ioFailure
  | serializationFailure
  | invalidManifest
  | invalidPackage
  | requestFailure
  | aborted
deriving DecidableEq

/-- The package database of src/database.rs: a vector of shared package
handles.  Handles are modelled by positions into the list.  The
package_cache field is modelled from the spec (section 3: the store owns
a cache directory path that is never serialized and is re-supplied at
load time); the snapshot of src/database.rs predates it. -/
structure Database where
  packages : List Package
  package_cache : String
deriving DecidableEq

/-- Database.get_package of src/database.rs: the first package with the
given name. -/
def Database.get_package (db : Database) (package_name : String) : Option Package :=
  db.packages.find? (fun package => package.name == package_name)

/-- Database.add_package of src/database.rs: push the package at the
end, with no duplicate check. -/
def Database.add_package (db : Database) (package : Package) : Database :=
  { db with packages := db.packages ++ [package] }

/-- Database.new_empty of src/database.rs, with the externally supplied
cache directory of the spec. -/
def Database.new_empty (cache : String) : Database :=
  { packages := [], package_cache := cache }

/-- The names of the packages of a database, in store order. -/
def Database.names (db : Database) : List String :=
  db.packages.map Package.name

/-- Position of the first package with the given name; shared package
handles of the Rust source are modelled as positions into the store. -/
def Database.get_package_index (db : Database) (package_name : String) : Option Nat :=
  db.packages.findIdx? (fun package => package.name == package_name)

/-- One iteration of the packages_from_names loop of src/selection.rs:
push a resolved package on the found list, or the unresolved name on
the not-found list. -/
def pfnStep (database : Database) (acc : List Package × List String)
    (package_name : String) : List Package × List String :=
  match database.get_package package_name with
  | some package => (acc.1 ++ [package], acc.2)
  | none => (acc.1, acc.2 ++ [package_name])

/-- The packages_from_names function of src/selection.rs: walk the
names, collecting the resolved packages and the unresolved names; if
any name is unresolved, fail with a PackageNotFound error carrying the
unresolved names together with the list of resolved packages. -/
def packages_from_names (package_names : List String) (database : Database) :
    Except (MixError × List Package) (List Package) :=
  let acc := package_names.foldl (pfnStep database) ([], [])
  if acc.2.isEmpty then .ok acc.1
  else .error (.packageNotFound acc.2, acc.1)

/-- Modelled from the spec: the SelectResults type consumed by
Database.handle_operation and src/main.rs is not in the snapshot; per
spec section 4.5 it is either the full list of resolved handles or the
list of unresolved names.  Handles are modelled as store positions. -/
inductive SelectResults where
  | Results (indices : List Nat)
  | NotFound (names : List String)
deriving DecidableEq

/-- Modelled from the spec: the SelectResults-returning variant of
packages_from_names used by Database.handle_operation; resolves every
name or reports the unresolved names. -/
def select_from_names (package_names : List String) (db : Database) : SelectResults :=
  let acc := package_names.foldl
    (fun (acc : List Nat × List String) package_name =>
      match db.get_package_index package_name with
      | some index => (acc.1 ++ [index], acc.2)
      | none => (acc.1, acc.2 ++ [package_name]))
    ([], [])
  if acc.2.isEmpty then .Results acc.1
  else .NotFound acc.2

/-- The all_packages selection of src/main.rs and src/database.rs:
every handle in store order; it always succeeds. -/
def all_packages (db : Database) : SelectResults :=
  .Results (List.range db.packages.length)

/-- The Operation enum of src/operation.rs. -/
inductive Operation where
  | Install (packages : List String)
  | Remove (packages : List String)
  | Synchronize
  | Update (packages : Option (List String))
  | Fetch (packages : List String)
  | List
deriving DecidableEq

/-- The observable outcome of Database.handle_operation: the database
after the call, the sequence of packages handed to the per-package
progress callback (the update closure), and the returned result. -/
structure RunResult where
  db : Database
  progress : List Package
  result : Except MixError Unit

/-- One mutation step of an apply loop: read the package at the handle
for the progress callback, then mutate it in place. -/
def applyStep (f : Package → Package) (acc : Database × List Package) (i : Nat) :
    Database × List Package :=
  match acc.1.packages.get? i with
  | some p =>
      ({ acc.1 with packages := Mix.updateAt acc.1.packages i f }, acc.2 ++ [p])
  | none => acc

/-- Database.handle_operation of src/database.rs.  The confirm closure
is modelled by its one result; the todo and unreachable panics of the
source are modelled as the none outcome.  Filesystem and network
effects of the Fetch arm are outside the store model (they touch no
package record). -/
def Database.handle_operation (db : Database) (operation : Operation)
    (confirm : Except MixError Bool) : Option RunResult :=
  match operation with
  | .Install packages =>
      match select_from_names packages db with
      | .NotFound _ => none
      | .Results idxs =>
          match confirm with
          | .error e => some ⟨db, [], .error e⟩
          | .ok false => some ⟨db, [], .ok ()⟩
          | .ok true =>
              let r := idxs.foldl
                (applyStep (fun q => (q.mark_as_manually_installed).installPkg)) (db, [])
              some ⟨r.1, r.2, .ok ()⟩
  | .Remove packages =>
      match select_from_names packages db with
      | .NotFound _ => none
      | .Results idxs =>
          match confirm with
          | .error e => some ⟨db, [], .error e⟩
          | .ok false => some ⟨db, [], .ok ()⟩
          | .ok true =>
              let r := idxs.foldl (applyStep Package.removePkg) (db, [])
              some ⟨r.1, r.2, .ok ()⟩
  | .Synchronize => none
  | .Update packages =>
      let selected := match packages with
        | some packages => select_from_names packages db
        | none => all_packages db
      match selected with
      | .NotFound _ => none
      | .Results idxs =>
          match confirm with
          | .error e => some ⟨db, [], .error e⟩
          | .ok false => some ⟨db, [], .error .aborted⟩
          | .ok true =>
              let r := idxs.foldl (applyStep Package.updatePkg) (db, [])
              some ⟨r.1, r.2, .ok ()⟩
  | .Fetch packages =>
      match select_from_names packages db with
      | .NotFound _ => none
      | .Results idxs =>
          let progress := idxs.filterMap (fun i => db.packages.get? i)
          some ⟨db, progress, .ok ()⟩
  | .List => some ⟨db, [], .ok ()⟩

/-- Modelled from the spec: binary encoding of a version inside the
serialized store blob. -/
def encodeVersion : Version → List Token
  | .Unknown => [.tag 0]
  | .SemVer a b c => [.tag 1, .nat a, .nat b, .nat c]

/-- Decoder matching encodeVersion, consuming a prefix of the stream. -/
def decodeVersion : List Token → Option (Version × List Token)
  | .tag 0 :: rest => some (.Unknown, rest)
  | .tag 1 :: .nat a :: .nat b :: .nat c :: rest => some (.SemVer a b c, rest)
  | _ => none

/-- Modelled from the spec: binary encoding of an installation state. -/
def encodeState : InstallState → List Token
  | .Manual => [.tag 0]
  | .Dependency => [.tag 1]
  | .Uninstalled => [.tag 2]

/-- Decoder matching encodeState. -/
def decodeState : List Token → Option (InstallState × List Token)
  | .tag 0 :: rest => some (.Manual, rest)
  | .tag 1 :: rest => some (.Dependency, rest)
  | .tag 2 :: rest => some (.Uninstalled, rest)
  | _ => none

/-- Length-prefixed encoding of a list of strings (the files of a
package). -/
def encodeStrings (l : List String) : List Token :=
  .nat l.length :: l.map Token.str

/-- Reads exactly the given number of string tokens. -/
def decodeStringsAux : Nat → List Token → Option (List String × List Token)
  | 0, rest => some ([], rest)
  | n + 1, .str s :: rest =>
      match decodeStringsAux n rest with
      | some (l, r) => some (s :: l, r)
      | none => none
  | _ + 1, _ => none

/-- Decoder matching encodeStrings. -/
def decodeStrings : List Token → Option (List String × List Token)
  | .nat n :: rest => decodeStringsAux n rest
  | _ => none

/-- Modelled from the spec: binary encoding of one package record. -/
def encodePackage (p : Package) : List Token :=
  .str p.name :: (encodeVersion p.version ++ encodeState p.state ++ encodeStrings p.files)

/-- Decoder matching encodePackage. -/
def decodePackage : List Token → Option (Package × List Token)
  | .str name :: rest =>
      match decodeVersion rest with
      | some (v, rest1) =>
          match decodeState rest1 with
          | some (st, rest2) =>
              match decodeStrings rest2 with
              | some (fs, rest3) => some (⟨name, v, st, fs⟩, rest3)
              | none => none
          | none => none
      | none => none
  | _ => none

/-- Reads exactly the given number of package records. -/
def decodePackagesAux : Nat → List Token → Option (List Package × List Token)
  | 0, rest => some ([], rest)
  | n + 1, ts =>
      match decodePackage ts with
      | some (p, rest) =>
          match decodePackagesAux n rest with
          | some (l, r) => some (p :: l, r)
          | none => none
      | none => none

/-- Modelled from the spec, section 6: the serialized store blob is the
ordered package list and nothing else; the package_cache path is
deliberately excluded. -/
def encodePackages (l : List Package) : List Token :=
  .nat l.length :: l.foldr (fun p acc => encodePackage p ++ acc) []

/-- Full-blob decoder matching encodePackages; trailing garbage is a
decode failure, as with the serde reader of the source. -/
def decodePackages (ts : List Token) : Option (List Package) :=
  match ts with
  | .nat n :: rest =>
      match decodePackagesAux n rest with
      | some (l, []) => some l
      | _ => none
  | _ => none

/-- Database.save of src/database.rs: serialize the store as one blob.
File creation failures are outside the model; the claim under
verification composes a completed save with a load. -/
def Database.save (db : Database) : List Token :=
  encodePackages db.packages

/-- Database.load of src/database.rs: a missing file is the
distinguished FileNotFound error naming the path; any other open
failure is an IOError; a blob that does not decode is a
SerializationError; the cache directory is supplied by the caller, not
read from the file. -/
def Database.load (path : String) (file : OpenResult) (cache : String) :
    Except MixError Database :=
  match file with
  | .notFound => .error (.fileNotFound path)
  | .permissionDenied => .error .ioFailure
  | .otherIOFailure => .error .ioFailure
  | .ok content =>
      match decodePackages content with
      | some packages => .ok ⟨packages, cache⟩
      | none => .error .serializationFailure

end DB

namespace PL

/-- The InstallState of src/package.rs. -/
inductive InstallState where
  | ManuallyInstalled
  | DependencyInstalled
  | NotInstalled
deriving DecidableEq

/-- The Package of src/package.rs: the installation state and the name,
in the declared field order. -/
structure Package where
  install_state : InstallState
  name : String
deriving DecidableEq

/-- The Action enum of src/action.rs; Synchronize carries an optional
follow-up action. -/
inductive Action where
  | Install (packages : List String)
  | Remove (packages : List String)
  | Synchronize (next_action : Option Action)
  | Update (packages : Option (List String))
  | Fetch (packages : List String)
  | List

/-- Errors surfaced by the PackageList generation (src/error.rs of this
generation has a payload-free PackageNotFound; the other boxed errors
are grouped by their origin). -/
inductive Error where
  | packageNotFound
  | ioFailure
  | cborFailure
deriving DecidableEq

/-- The PackageList of src/package.rs: the save path, the package
cache, and the invalidated flag (serde-skipped, so it is false on any
deserialization). -/
structure PackageList where
  filename : String
  cache : List Package
  invalidated : Bool
deriving DecidableEq

/-- PackageList.get_package: the first package with the given name. -/
def PackageList.get_package (pl : PackageList) (package_name : String) : Option Package :=
  pl.cache.find? (fun package => package.name == package_name)

/-- PackageList.all_package_names: every name, in cache order. -/
def PackageList.all_package_names (pl : PackageList) : List String :=
  pl.cache.map Package.name

/-- The effect of writing through get_mut_package: replace the
installation state of the first package with the given name. -/
def setFirstState : List Package → String → InstallState → List Package
  | [], _, _ => []
  | p :: ps, n, st =>
      if p.name == n then { p with install_state := st } :: ps
      else p :: setFirstState ps n st

/-- One iteration of the install loop of src/package.rs: a known name
has its state set to ManuallyInstalled; an unknown name is pushed at
the end of the cache as a new manually installed package. -/
def installOne (pl : PackageList) (package_name : String) : PackageList :=
  match pl.get_package package_name with
  | some _ => { pl with cache := setFirstState pl.cache package_name .ManuallyInstalled }
  | none => { pl with cache := pl.cache ++ [⟨.ManuallyInstalled, package_name⟩] }

/-- PackageList.install of src/package.rs: set the invalidated flag,
then process each requested name in order; the function always returns
Ok. -/
def PackageList.install (pl : PackageList) (packages : List String) :
    PackageList × Except Error Unit :=
  (packages.foldl installOne { pl with invalidated := true }, .ok ())

/-- One iteration of the remove loop: a known name has its state set to
NotInstalled, an unknown name is skipped. -/
def removeOne (pl : PackageList) (package_name : String) : PackageList :=
  match pl.get_package package_name with
  | some _ => { pl with cache := setFirstState pl.cache package_name .NotInstalled }
  | none => pl

/-- PackageList.remove of src/package.rs: set the invalidated flag,
then mark each named package as NotInstalled; never deletes an entry
and always returns Ok. -/
def PackageList.remove (pl : PackageList) (packages : List String) :
    PackageList × Except Error Unit :=
  (packages.foldl removeOne { pl with invalidated := true }, .ok ())

/-- The hard-coded default package set of PackageList.synchronize. -/
def default_packages : List String :=
  ["bash", "bzip2", "coreutils", "file", "filesystem", "findutils", "gawk",
   "gcc-libs", "gettext", "glibc", "grep", "gzip", "iproute2", "iputils",
   "licenses", "pacman", "pciutils", "procps-ng", "psmisc", "sed", "shadow",
   "systemd", "systemd-sysvcompat", "tar", "util-linux", "xz", "linux"]

/-- One iteration of the synchronize loop: push a NotInstalled entry
for a default package that is not yet known. -/
def syncOne (pl : PackageList) (package_name : String) : PackageList :=
  match pl.get_package package_name with
  | some _ => pl
  | none => { pl with cache := pl.cache ++ [⟨.NotInstalled, package_name⟩] }

/-- PackageList.synchronize of src/package.rs: set the invalidated
flag, then add every missing default package as NotInstalled; the
next_action argument is unused by the source. -/
def PackageList.synchronize (pl : PackageList) (_next_action : Option Action) :
    PackageList × Except Error Unit :=
  (default_packages.foldl syncOne { pl with invalidated := true }, .ok ())

/-- The first loop of PackageList.update: resolve every name in order,
stopping at the first unresolved name. -/
def collectPackages (pl : PackageList) : List String → Option (List Package)
  | [] => some []
  | n :: ns =>
      match pl.get_package n with
      | some p =>
          match collectPackages pl ns with
          | some l => some (p :: l)
          | none => none
      | none => none

/-- The body of PackageList.update once the name list is fixed: fail
with PackageNotFound at the first unresolved name; the second loop of
the source only prints and changes nothing. -/
def updateNames (pl : PackageList) (package_names : List String) :
    PackageList × Except Error Unit :=
  match collectPackages pl package_names with
  | some _ => (pl, .ok ())
  | none => (pl, .error .packageNotFound)

/-- PackageList.update of src/package.rs: set the invalidated flag,
take the explicit name list or default to every known name, then
resolve the names. -/
def PackageList.update (pl : PackageList) (packages : Option (List String)) :
    PackageList × Except Error Unit :=
  updateNames { pl with invalidated := true }
    (match packages with
      | some package_names => package_names
      | none => PackageList.all_package_names { pl with invalidated := true })

/-- PackageList.needs_save of src/package.rs. -/
def PackageList.needs_save (pl : PackageList) : Bool :=
  pl.invalidated

/-- Decoder for a serialized installation state of this generation. -/
def decodePState : List Token → Option (InstallState × List Token)
  | .tag 0 :: rest => some (.ManuallyInstalled, rest)
  | .tag 1 :: rest => some (.DependencyInstalled, rest)
  | .tag 2 :: rest => some (.NotInstalled, rest)
  | _ => none

/-- Reads exactly the given number of serialized packages (state field
first, then name, per the declared field order). -/
def decodePLPackagesAux : Nat → List Token → Option (List Package × List Token)
  | 0, rest => some ([], rest)
  | n + 1, ts =>
      match decodePState ts with
      | some (st, .str name :: rest) =>
          match decodePLPackagesAux n rest with
          | some (l, r) => some (⟨st, name⟩ :: l, r)
          | none => none
      | _ => none

/-- Full-blob decoder for a serialized PackageList: the stored
filename, then the length-prefixed package cache; the invalidated flag
is serde-skipped and not part of the blob. -/
def decodePackageList : List Token → Option (String × List Package)
  | .str filename :: .nat n :: rest =>
      match decodePLPackagesAux n rest with
      | some (l, []) => some (filename, l)
      | _ => none
  | _ => none

/-- PackageList.load of src/package.rs: a decodable file yields the
deserialized list (with the stored filename and a false invalidated
flag); a missing file yields a fresh empty list at the requested path;
a permission failure and any other open failure are errors, and so is
every decode failure, whatever its serde category. -/
def PackageList.load (path : String) (file : OpenResult) : Except Error PackageList :=
  match file with
  | .ok content =>
      match decodePackageList content with
      | some (filename, cache) => .ok ⟨filename, cache, false⟩
      | none => .error .cborFailure
  | .notFound => .ok ⟨path, [], false⟩
  | .permissionDenied => .error .ioFailure
  | .otherIOFailure => .error .ioFailure

end PL

end Mix

section VersionOrder

open Mix.DB

/-- The lexicographic strict order on semantic version triples. -/
def semverLt (a b c d e f : Nat) : Prop :=
  a < d ∨ (a = d ∧ (b < e ∨ (b = e ∧ c < f)))

instance (a b c d e f : Nat) : Decidable (semverLt a b c d e f) := by
  unfold semverLt; infer_instance

theorem semver_cmp_lt_iff (a b c d e f : Nat) :
    Version.cmp (.SemVer a b c) (.SemVer d e f) = .lt ↔ semverLt a b c d e f := by
  simp only [Version.cmp, Ordering.then_eq_lt, Nat.compare_eq_lt, Nat.compare_eq_eq, semverLt]

theorem version_cmp_eq_iff (v w : Version) : Version.cmp v w = .eq ↔ v = w := by
  cases v with
  | Unknown => cases w <;> simp [Version.cmp]
  | SemVer a b c =>
      cases w with
      | Unknown => simp [Version.cmp]
      | SemVer d e f =>
          simp only [Version.cmp, Ordering.then_eq_eq, Nat.compare_eq_eq,
            Version.SemVer.injEq]

theorem version_cmp_swap (v w : Version) : (Version.cmp v w).swap = Version.cmp w v := by
  cases v with
  | Unknown => cases w <;> rfl
  | SemVer a b c =>
      cases w with
      | Unknown => rfl
      | SemVer d e f =>
          simp only [Version.cmp, Ordering.swap_then, Nat.compare_swap]

theorem version_cmp_trans (u v w : Version) (h1 : Version.cmp u v = .lt)
    (h2 : Version.cmp v w = .lt) : Version.cmp u w = .lt := by
  cases u with
  | Unknown =>
      cases w with
      | Unknown =>
          cases v <;> simp_all [Version.cmp]
      | SemVer d e f => rfl
  | SemVer a b c =>
      cases v with
      | Unknown => simp [Version.cmp] at h1
      | SemVer p q r =>
          cases w with
          | Unknown => simp [Version.cmp] at h2
          | SemVer d e f =>
              rw [semver_cmp_lt_iff] at h1 h2 ⊢
              unfold semverLt at h1 h2 ⊢
              omega

/-- C9: the Version comparison is a strict total order; Unknown is
strictly below every SemVer and equal only to Unknown; on SemVer
triples the order is lexicographic on (major, minor, patch); equality
holds only between identical variants, so Unknown is not equal to
SemVer 0 0 0. -/
theorem version_cmp_strict_total_order :
    (∀ a b c : Nat, Version.cmp .Unknown (.SemVer a b c) = .lt) ∧
    (∀ v w : Version, Version.cmp v w = .eq ↔ v = w) ∧
    (∀ a b c d e f : Nat,
      Version.cmp (.SemVer a b c) (.SemVer d e f) = .lt ↔ semverLt a b c d e f) ∧
    (∀ v w : Version, (Version.cmp v w).swap = Version.cmp w v) ∧
    (∀ u v w : Version,
      Version.cmp u v = .lt → Version.cmp v w = .lt → Version.cmp u w = .lt) ∧
    Version.cmp .Unknown (.SemVer 0 0 0) ≠ .eq := by
  refine ⟨fun _ _ _ => rfl, version_cmp_eq_iff, semver_cmp_lt_iff, version_cmp_swap,
    version_cmp_trans, ?_⟩
  decide

/-- C9 witness: the transitivity component applied at concrete
versions. -/
theorem version_cmp_strict_total_order_witness :
    Version.cmp (.SemVer 0 0 1) (.SemVer 0 2 0) = .lt :=
  version_cmp_strict_total_order.2.2.2.2.1 (.SemVer 0 0 1) (.SemVer 0 1 0)
    (.SemVer 0 2 0) (by decide) (by decide)

end VersionOrder

section LoadErrors

open Mix

/-- C3 counterexample: loading from a path where no file exists does
not return the distinguished not-found error in the PackageList
generation; PackageList.load silently substitutes a fresh empty store
instead. -/
theorem packagelist_load_notfound_counterexample :
    PL.PackageList.load "mix.db" .notFound = .ok ⟨"mix.db", [], false⟩ ∧
    (PL.PackageList.load "mix.db" .notFound).isOk = true :=
  ⟨rfl, rfl⟩

/-- C3 amended: Database.load returns the distinguished FileNotFound
error on a missing file, an IOError on any other open failure, a
SerializationError on undecodable content, and succeeds only by
decoding the file content (never substituting a different store);
PackageList.load instead recovers from a missing file by returning a
fresh empty list at the requested path, and fails on permission and
other I/O failures and on every decode failure. -/
theorem load_error_taxonomy :
    (∀ path cache, DB.Database.load path .notFound cache = .error (.fileNotFound path)) ∧
    (∀ path cache, DB.Database.load path .permissionDenied cache = .error .ioFailure) ∧
    (∀ path cache, DB.Database.load path .otherIOFailure cache = .error .ioFailure) ∧
    (∀ path cache content, DB.decodePackages content = none →
        DB.Database.load path (.ok content) cache = .error .serializationFailure) ∧
    (∀ path cache content db, DB.Database.load path (.ok content) cache = .ok db →
        DB.decodePackages content = some db.packages ∧ db.package_cache = cache) ∧
    (∀ path, PL.PackageList.load path .notFound = .ok ⟨path, [], false⟩) ∧
    (∀ path, PL.PackageList.load path .permissionDenied = .error .ioFailure) ∧
    (∀ path, PL.PackageList.load path .otherIOFailure = .error .ioFailure) ∧
    (∀ path content, PL.decodePackageList content = none →
        PL.PackageList.load path (.ok content) = .error .cborFailure) := by
  refine ⟨fun _ _ => rfl, fun _ _ => rfl, fun _ _ => rfl, ?_, ?_, fun _ => rfl,
    fun _ => rfl, fun _ => rfl, ?_⟩
  · intro path cache content h
    simp [DB.Database.load, h]
  · intro path cache content db h
    have hred : DB.Database.load path (.ok content) cache =
        (match DB.decodePackages content with
          | some packages => Except.ok (⟨packages, cache⟩ : DB.Database)
          | none => Except.error DB.MixError.serializationFailure) := rfl
    rw [hred] at h
    cases hd : DB.decodePackages content with
    | none => rw [hd] at h; exact absurd h (by simp)
    | some packages =>
        rw [hd] at h
        cases h
        exact ⟨rfl, rfl⟩
  · intro path content h
    simp [PL.PackageList.load, h]

/-- C3 witness: the serialization-failure component applied to an empty
blob, which does not decode. -/
theorem load_error_taxonomy_witness :
    Mix.DB.Database.load "db" (.ok []) "cache" = .error .serializationFailure :=
  load_error_taxonomy.2.2.2.1 "db" "cache" [] rfl

end LoadErrors

section Roundtrip

open Mix Mix.DB

theorem decodeVersion_encode (v : Version) (r : List Token) :
    decodeVersion (encodeVersion v ++ r) = some (v, r) := by
  cases v <;> rfl

theorem decodeState_encode (s : InstallState) (r : List Token) :
    decodeState (encodeState s ++ r) = some (s, r) := by
  cases s <;> rfl

theorem decodeStringsAux_encode (l : List String) (r : List Token) :
    decodeStringsAux l.length (l.map Token.str ++ r) = some (l, r) := by
  induction l with
  | nil => rfl
  | cons s l ih => simp [decodeStringsAux, ih]

theorem decodeStrings_encode (l : List String) (r : List Token) :
    decodeStrings (encodeStrings l ++ r) = some (l, r) := by
  simp [encodeStrings, decodeStrings, decodeStringsAux_encode]

theorem decodePackage_encode (p : Package) (r : List Token) :
    decodePackage (encodePackage p ++ r) = some (p, r) := by
  obtain ⟨name, v, st, fs⟩ := p
  simp [encodePackage, decodePackage, List.append_assoc, decodeVersion_encode,
    decodeState_encode, decodeStrings_encode]

theorem decodePackagesAux_encode (l : List Package) (r : List Token) :
    decodePackagesAux l.length
      (l.foldr (fun p acc => encodePackage p ++ acc) [] ++ r) = some (l, r) := by
  induction l with
  | nil => rfl
  | cons p l ih =>
      simp [decodePackagesAux, List.append_assoc, decodePackage_encode, ih]

theorem decodePackages_encode (l : List Package) :
    decodePackages (encodePackages l) = some l := by
  have h := decodePackagesAux_encode l []
  rw [List.append_nil] at h
  simp [encodePackages, decodePackages, h]

/-- C8: saving a store and then loading the saved blob yields a store
whose package list is identical to the original, package by package and
field by field in the same order, with the cache directory taken from
the externally supplied argument rather than recovered from the
file. -/
theorem database_save_load_roundtrip (db : Database) (path cache : String) :
    Database.load path (.ok (Database.save db)) cache = .ok ⟨db.packages, cache⟩ := by
  have hred : Database.load path (.ok (Database.save db)) cache =
      (match decodePackages (Database.save db) with
        | some packages => Except.ok (⟨packages, cache⟩ : Database)
        | none => Except.error MixError.serializationFailure) := rfl
  rw [hred, Database.save, decodePackages_encode]

end Roundtrip

section Selection

open Mix Mix.DB

theorem get_package_name (db : Database) (n : String) (p : Package)
    (h : db.get_package n = some p) : p.name = n := by
  unfold Database.get_package at h
  have hbeq := List.find?_some h
  simpa using hbeq

theorem isNone_eq_not_isSome {α : Type} (o : Option α) : o.isNone = !o.isSome := by
  cases o <;> rfl

theorem pfn_foldl (db : Database) (names : List String) (found : List Package)
    (nf : List String) :
    names.foldl (pfnStep db) (found, nf) =
      (found ++ names.filterMap db.get_package,
       nf ++ names.filter (fun n => (db.get_package n).isNone)) := by
  induction names generalizing found nf with
  | nil => simp
  | cons n ns ih =>
      cases h : db.get_package n with
      | some p => simp [pfnStep, h, ih]
      | none => simp [pfnStep, h, ih]

theorem packages_from_names_eq (names : List String) (db : Database) :
    packages_from_names names db =
      if (names.filter (fun n => (db.get_package n).isNone)).isEmpty
      then .ok (names.filterMap db.get_package)
      else .error (.packageNotFound (names.filter (fun n => (db.get_package n).isNone)),
                   names.filterMap db.get_package) := by
  unfold packages_from_names
  rw [pfn_foldl]
  simp

theorem filterMap_get_names_eq_filter (db : Database) (names : List String) :
    (names.filterMap db.get_package).map Package.name =
      names.filter (fun n => (db.get_package n).isSome) := by
  induction names with
  | nil => rfl
  | cons n ns ih =>
      cases hp : db.get_package n with
      | some p => simp [hp, get_package_name db n p hp, ih]
      | none => simp [hp, ih]

/-- C1: packages_from_names succeeds exactly when every name resolves;
the found packages appear in input-name order (they are the filterMap of
resolution over the names, and in the success case their names are
exactly the input list); on failure the error carries the unresolved
names, and the names of the found packages together with the not-found
names partition the input name list. -/
theorem packages_from_names_partition (names : List String) (db : Database) :
    (∀ found, packages_from_names names db = .ok found →
       (∀ n ∈ names, (db.get_package n).isSome) ∧
       found = names.filterMap db.get_package ∧
       found.map Package.name = names) ∧
    (∀ e found, packages_from_names names db = .error (e, found) →
       (∃ n ∈ names, db.get_package n = none) ∧
       e = .packageNotFound (names.filter (fun n => (db.get_package n).isNone)) ∧
       found = names.filterMap db.get_package ∧
       names.partition (fun n => (db.get_package n).isSome) =
         (found.map Package.name,
          names.filter (fun n => (db.get_package n).isNone))) := by
  rw [packages_from_names_eq]
  by_cases hemp : (names.filter (fun n => (db.get_package n).isNone)).isEmpty
  · rw [if_pos hemp]
    have hall : ∀ n ∈ names, (db.get_package n).isSome := by
      intro n hn
      have := (List.isEmpty_iff.mp hemp)
      have hmem := List.filter_eq_nil_iff.mp this n hn
      simpa [Option.isNone_iff_eq_none, Option.isSome_iff_ne_none] using hmem
    constructor
    · intro found hf
      cases hf
      refine ⟨hall, rfl, ?_⟩
      rw [filterMap_get_names_eq_filter]
      exact List.filter_eq_self.mpr hall
    · intro e found hf
      cases hf
  · rw [if_neg hemp]
    constructor
    · intro found hf
      cases hf
    · intro e found hf
      cases hf
      have hne : names.filter (fun n => (db.get_package n).isNone) ≠ [] := by
        intro h
        exact hemp (by simp [h])
      obtain ⟨n, hn⟩ := List.exists_mem_of_ne_nil _ hne
      have hmem := List.mem_filter.mp hn
      refine ⟨⟨n, hmem.1, Option.isNone_iff_eq_none.mp hmem.2⟩, rfl, rfl, ?_⟩
      rw [List.partition_eq_filter_filter, filterMap_get_names_eq_filter]
      have hfun : (fun n => (db.get_package n).isNone) =
          (fun n => !(db.get_package n).isSome) := by
        funext n
        rw [isNone_eq_not_isSome]
      rw [hfun]
      rfl

/-- C1 witness: the success component applied to a store holding one
package named a and the request for that single name. -/
theorem packages_from_names_partition_witness :
    (∀ n ∈ ["a"],
      ((⟨[⟨"a", .Unknown, .Uninstalled, []⟩], "cache"⟩ : Database).get_package n).isSome) ∧
    ([(⟨"a", .Unknown, .Uninstalled, []⟩ : Package)] =
      ["a"].filterMap (⟨[⟨"a", .Unknown, .Uninstalled, []⟩], "cache"⟩ : Database).get_package) ∧
    ([(⟨"a", .Unknown, .Uninstalled, []⟩ : Package)].map Package.name = ["a"]) :=
  (packages_from_names_partition ["a"]
      ⟨[⟨"a", .Unknown, .Uninstalled, []⟩], "cache"⟩).1
    [⟨"a", .Unknown, .Uninstalled, []⟩] (by rfl)

end Selection

section NeedsSave

open Mix Mix.PL

theorem installOne_invalidated (pl : PackageList) (n : String) :
    (installOne pl n).invalidated = pl.invalidated := by
  unfold installOne
  cases pl.get_package n <;> rfl

theorem removeOne_invalidated (pl : PackageList) (n : String) :
    (removeOne pl n).invalidated = pl.invalidated := by
  unfold removeOne
  cases pl.get_package n <;> rfl

theorem syncOne_invalidated (pl : PackageList) (n : String) :
    (syncOne pl n).invalidated = pl.invalidated := by
  unfold syncOne
  cases pl.get_package n <;> rfl

theorem foldl_installOne_invalidated (ns : List String) (pl : PackageList) :
    (ns.foldl installOne pl).invalidated = pl.invalidated := by
  induction ns generalizing pl with
  | nil => rfl
  | cons n ns ih => rw [List.foldl_cons, ih, installOne_invalidated]

theorem foldl_removeOne_invalidated (ns : List String) (pl : PackageList) :
    (ns.foldl removeOne pl).invalidated = pl.invalidated := by
  induction ns generalizing pl with
  | nil => rfl
  | cons n ns ih => rw [List.foldl_cons, ih, removeOne_invalidated]

theorem foldl_syncOne_invalidated (ns : List String) (pl : PackageList) :
    (ns.foldl syncOne pl).invalidated = pl.invalidated := by
  induction ns generalizing pl with
  | nil => rfl
  | cons n ns ih => rw [List.foldl_cons, ih, syncOne_invalidated]

theorem updateNames_fst (pl : PackageList) (ns : List String) :
    (updateNames pl ns).1 = pl := by
  unfold updateNames
  cases collectPackages pl ns <;> rfl

theorem update_fst (pl : PackageList) (packages : Option (List String)) :
    (PackageList.update pl packages).1 = { pl with invalidated := true } :=
  updateNames_fst _ _

theorem load_reduce (path : String) (content : List Token) :
    PackageList.load path (.ok content) =
      (match decodePackageList content with
        | some (filename, cache) => Except.ok (⟨filename, cache, false⟩ : PackageList)
        | none => Except.error Error.cborFailure) := rfl

/-- C10: needs_save reports true after install, remove, synchronize and
update, regardless of whether the operation changed anything or
succeeded, while any successfully loaded PackageList (fresh empty one
included) reports false.  The remaining operations fetch, list and
get_package take the list by shared reference in the source and cannot
touch the flag. -/
theorem needs_save_flag :
    (∀ (pl : PackageList) (ns : List String), (pl.install ns).1.needs_save = true) ∧
    (∀ (pl : PackageList) (ns : List String), (pl.remove ns).1.needs_save = true) ∧
    (∀ (pl : PackageList) (a : Option Action),
      (pl.synchronize a).1.needs_save = true) ∧
    (∀ (pl : PackageList) (ns : Option (List String)),
      (pl.update ns).1.needs_save = true) ∧
    (∀ (path : String) (file : OpenResult) (pl : PackageList),
      PackageList.load path file = .ok pl → pl.needs_save = false) := by
  refine ⟨?_, ?_, ?_, ?_, ?_⟩
  · intro pl ns
    show (ns.foldl installOne { pl with invalidated := true }).invalidated = true
    rw [foldl_installOne_invalidated]
  · intro pl ns
    show (ns.foldl removeOne { pl with invalidated := true }).invalidated = true
    rw [foldl_removeOne_invalidated]
  · intro pl a
    show (default_packages.foldl syncOne { pl with invalidated := true }).invalidated = true
    rw [foldl_syncOne_invalidated]
  · intro pl ns
    rw [update_fst]
    rfl
  · intro path file pl h
    cases file with
    | ok content =>
        rw [load_reduce] at h
        cases hd : decodePackageList content with
        | some fc =>
            obtain ⟨fn, c⟩ := fc
            rw [hd] at h
            cases h
            rfl
        | none =>
            rw [hd] at h
            exact absurd h (by simp)
    | notFound => cases h; rfl
    | permissionDenied => exact absurd h (by simp [PackageList.load])
    | otherIOFailure => exact absurd h (by simp [PackageList.load])

/-- C10 witness: a load from a missing file succeeds with a fresh list
whose needs_save flag is false. -/
theorem needs_save_flag_witness :
    (⟨"mix.db", [], false⟩ : PackageList).needs_save = false :=
  needs_save_flag.2.2.2.2 "mix.db" .notFound ⟨"mix.db", [], false⟩ rfl

end NeedsSave

section UpdateErrors

open Mix Mix.PL

theorem collectPackages_eq_none (pl : PackageList) (ns : List String) :
    collectPackages pl ns = none ↔ ∃ n ∈ ns, pl.get_package n = none := by
  induction ns with
  | nil => simp [collectPackages]
  | cons n ns ih =>
      unfold collectPackages
      cases h : pl.get_package n with
      | none => simp [h]
      | some p =>
          cases hc : collectPackages pl ns with
          | none =>
              simp only [hc]
              simp [ih.mp hc, h]
          | some l =>
              simp only [hc]
              constructor
              · intro hcontra
                exact absurd hcontra (by simp)
              · rintro ⟨m, hm, hnone⟩
                cases hm with
                | head => rw [h] at hnone; cases hnone
                | tail _ hmem =>
                    have : collectPackages pl ns = none := ih.mpr ⟨m, hmem, hnone⟩
                    rw [this] at hc
                    cases hc

theorem all_names_resolve (pl : PackageList) (n : String)
    (hn : n ∈ pl.all_package_names) : pl.get_package n ≠ none := by
  unfold PackageList.all_package_names at hn
  obtain ⟨p, hp, hname⟩ := List.mem_map.mp hn
  intro hnone
  unfold PackageList.get_package at hnone
  have := List.find?_eq_none.mp hnone p hp
  rw [hname] at this
  simp at this

theorem updateNames_snd_iff (pl : PackageList) (ns : List String) :
    (updateNames pl ns).2 = .error .packageNotFound ↔
      ∃ n ∈ ns, pl.get_package n = none := by
  unfold updateNames
  cases hc : collectPackages pl ns with
  | some l =>
      simp only [hc]
      constructor
      · intro hcontra
        exact absurd hcontra (by simp)
      · intro hex
        have hnone := (collectPackages_eq_none pl ns).mpr hex
        rw [hnone] at hc
        cases hc
  | none =>
      simp only [hc]
      simp [(collectPackages_eq_none pl ns).mp hc]

/-- C6: update with an explicit name list fails with PackageNotFound
exactly when some listed name does not resolve, and in every case the
package cache (and so every field of every package) is unchanged;
update over the whole store never fails. -/
theorem update_package_not_found_iff :
    (∀ (pl : PackageList) (ns : List String),
       ((pl.update (some ns)).2 = .error .packageNotFound ↔
         ∃ n ∈ ns, pl.get_package n = none) ∧
       (pl.update (some ns)).1.cache = pl.cache) ∧
    (∀ pl : PackageList,
       (pl.update none).2 = .ok () ∧ (pl.update none).1.cache = pl.cache) := by
  constructor
  · intro pl ns
    constructor
    · exact updateNames_snd_iff { pl with invalidated := true } ns
    · rw [update_fst]
  · intro pl
    constructor
    · show (updateNames { pl with invalidated := true }
          (PackageList.all_package_names { pl with invalidated := true })).2 = .ok ()
      unfold updateNames
      cases hc : collectPackages { pl with invalidated := true }
          (PackageList.all_package_names { pl with invalidated := true }) with
      | some l =>
          simp only [hc]
      | none =>
          obtain ⟨n, hn, hnone⟩ := (collectPackages_eq_none _ _).mp hc
          exact absurd hnone (all_names_resolve _ n hn)
    · rw [update_fst]

/-- C6 witness: updating a single unknown name on an empty list fails
with PackageNotFound while updating everything succeeds. -/
theorem update_package_not_found_iff_witness :
    ((⟨"mix.db", [], false⟩ : PackageList).update (some ["x"])).2 =
      .error .packageNotFound ∧
    ((⟨"mix.db", [], false⟩ : PackageList).update none).2 = .ok () :=
  ⟨((update_package_not_found_iff.1 ⟨"mix.db", [], false⟩ ["x"]).1).mpr
      ⟨"x", by simp, rfl⟩,
   (update_package_not_found_iff.2 ⟨"mix.db", [], false⟩).1⟩

end UpdateErrors

section PLHelpers

open Mix Mix.PL

theorem setFirstState_map_name (l : List Package) (n : String) (st : InstallState) :
    (setFirstState l n st).map Package.name = l.map Package.name := by
  induction l with
  | nil => rfl
  | cons p ps ih =>
      unfold setFirstState
      by_cases h : p.name == n
      · simp [h]
      · simp [h, ih]

theorem setFirstState_find_self (l : List Package) (n : String) (st : InstallState)
    (p : Package) (h : l.find? (fun q => q.name == n) = some p) :
    (setFirstState l n st).find? (fun q => q.name == n) =
      some { p with install_state := st } := by
  induction l with
  | nil => cases h
  | cons q qs ih =>
      unfold setFirstState
      cases hq : (q.name == n) with
      | true =>
          have hq1 : (fun x : Package => x.name == n) q = true := hq
          rw [@List.find?_cons_of_pos _ (fun x : Package => x.name == n) q qs hq1] at h
          injection h with hpq
          subst hpq
          rw [if_pos rfl]
          exact @List.find?_cons_of_pos _ (fun x : Package => x.name == n)
            { q with install_state := st } qs hq1
      | false =>
          have hq1 : ¬ ((fun x : Package => x.name == n) q = true) := by simp [hq]
          rw [@List.find?_cons_of_neg _ (fun x : Package => x.name == n) q qs hq1] at h
          rw [if_neg Bool.false_ne_true,
            @List.find?_cons_of_neg _ (fun x : Package => x.name == n) q
              (setFirstState qs n st) hq1]
          exact ih h

theorem setFirstState_find_other (l : List Package) (n : String) (st : InstallState)
    (m : String) (hnm : m ≠ n) :
    (setFirstState l n st).find? (fun q => q.name == m) =
      l.find? (fun q => q.name == m) := by
  induction l with
  | nil => rfl
  | cons q qs ih =>
      unfold setFirstState
      cases hq : (q.name == n) with
      | true =>
          rw [if_pos rfl]
          have hqn : q.name = n := by simpa using hq
          have hm : ¬ ((fun x : Package => x.name == m) q = true) := by
            simp only [beq_iff_eq, hqn]
            exact Ne.symm hnm
          rw [@List.find?_cons_of_neg _ (fun x : Package => x.name == m)
              { q with install_state := st } qs hm,
            @List.find?_cons_of_neg _ (fun x : Package => x.name == m) q qs hm]
      | false =>
          rw [if_neg Bool.false_ne_true]
          cases hm : (q.name == m) with
          | true =>
              have hm1 : (fun x : Package => x.name == m) q = true := hm
              rw [@List.find?_cons_of_pos _ (fun x : Package => x.name == m) q
                  (setFirstState qs n st) hm1,
                @List.find?_cons_of_pos _ (fun x : Package => x.name == m) q qs hm1]
          | false =>
              have hm1 : ¬ ((fun x : Package => x.name == m) q = true) := by simp [hm]
              rw [@List.find?_cons_of_neg _ (fun x : Package => x.name == m) q
                  (setFirstState qs n st) hm1,
                @List.find?_cons_of_neg _ (fun x : Package => x.name == m) q qs hm1]
              exact ih

theorem setFirstState_get? (l : List Package) (n : String) (st : InstallState) (i : Nat) :
    (setFirstState l n st).get? i = l.get? i ∨
      ∃ p, l.get? i = some p ∧ p.name = n ∧
        (setFirstState l n st).get? i = some { p with install_state := st } := by
  induction l generalizing i with
  | nil => exact Or.inl rfl
  | cons p ps ih =>
      unfold setFirstState
      by_cases h : p.name == n
      · rw [if_pos h]
        cases i with
        | zero => exact Or.inr ⟨p, rfl, by simpa using h, rfl⟩
        | succ j => exact Or.inl rfl
      · rw [if_neg h]
        cases i with
        | zero => exact Or.inl rfl
        | succ j => exact ih j

theorem installOne_found (pl : PackageList) (n : String) (p : Package)
    (h : pl.get_package n = some p) :
    installOne pl n = { pl with cache := setFirstState pl.cache n .ManuallyInstalled } := by
  unfold installOne
  rw [h]

theorem installOne_new (pl : PackageList) (n : String) (h : pl.get_package n = none) :
    installOne pl n = { pl with cache := pl.cache ++ [⟨.ManuallyInstalled, n⟩] } := by
  unfold installOne
  rw [h]

theorem removeOne_found (pl : PackageList) (n : String) (p : Package)
    (h : pl.get_package n = some p) :
    removeOne pl n = { pl with cache := setFirstState pl.cache n .NotInstalled } := by
  unfold removeOne
  rw [h]

theorem removeOne_missing (pl : PackageList) (n : String)
    (h : pl.get_package n = none) : removeOne pl n = pl := by
  unfold removeOne
  rw [h]

theorem syncOne_found (pl : PackageList) (n : String) (p : Package)
    (h : pl.get_package n = some p) : syncOne pl n = pl := by
  unfold syncOne
  rw [h]

theorem syncOne_new (pl : PackageList) (n : String) (h : pl.get_package n = none) :
    syncOne pl n = { pl with cache := pl.cache ++ [⟨.NotInstalled, n⟩] } := by
  unfold syncOne
  rw [h]

theorem get_package_eq_none_iff (pl : PackageList) (n : String) :
    pl.get_package n = none ↔ n ∉ pl.cache.map Package.name := by
  unfold PackageList.get_package
  rw [List.find?_eq_none]
  simp [List.mem_map]

end PLHelpers

section DistinctNames

open Mix Mix.PL

theorem installOne_nodup (pl : PackageList) (n : String)
    (h : (pl.cache.map Package.name).Nodup) :
    ((installOne pl n).cache.map Package.name).Nodup := by
  cases hg : pl.get_package n with
  | some p =>
      rw [installOne_found pl n p hg]
      show ((setFirstState pl.cache n .ManuallyInstalled).map Package.name).Nodup
      rw [setFirstState_map_name]
      exact h
  | none =>
      rw [installOne_new pl n hg]
      show ((pl.cache ++ [(⟨.ManuallyInstalled, n⟩ : Package)]).map Package.name).Nodup
      rw [List.map_append]
      simp [List.nodup_append, h, (get_package_eq_none_iff pl n).mp hg]

theorem foldl_installOne_nodup (ns : List String) (pl : PackageList)
    (h : (pl.cache.map Package.name).Nodup) :
    ((ns.foldl installOne pl).cache.map Package.name).Nodup := by
  induction ns generalizing pl with
  | nil => exact h
  | cons n ns ih => exact ih _ (installOne_nodup pl n h)

theorem syncOne_nodup (pl : PackageList) (n : String)
    (h : (pl.cache.map Package.name).Nodup) :
    ((syncOne pl n).cache.map Package.name).Nodup := by
  cases hg : pl.get_package n with
  | some p =>
      rw [syncOne_found pl n p hg]
      exact h
  | none =>
      rw [syncOne_new pl n hg]
      show ((pl.cache ++ [(⟨.NotInstalled, n⟩ : Package)]).map Package.name).Nodup
      rw [List.map_append]
      simp [List.nodup_append, h, (get_package_eq_none_iff pl n).mp hg]

theorem foldl_syncOne_nodup (ns : List String) (pl : PackageList)
    (h : (pl.cache.map Package.name).Nodup) :
    ((ns.foldl syncOne pl).cache.map Package.name).Nodup := by
  induction ns generalizing pl with
  | nil => exact h
  | cons n ns ih => exact ih _ (syncOne_nodup pl n h)

theorem add_package_nodup (db : DB.Database) (p : DB.Package)
    (h : db.names.Nodup) (hf : p.name ∉ db.names) :
    (db.add_package p).names.Nodup := by
  unfold DB.Database.add_package DB.Database.names at *
  rw [List.map_append]
  simp [List.nodup_append, h, hf]

/-- C2 counterexample: Database.add_package performs no duplicate
check, so adding a package whose name is already present breaks the
distinct-names invariant. -/
theorem add_package_duplicate_counterexample :
    ((⟨[⟨"a", .Unknown, .Uninstalled, []⟩], "cache"⟩ : DB.Database).names.Nodup) ∧
    ¬ (((⟨[⟨"a", .Unknown, .Uninstalled, []⟩], "cache"⟩ : DB.Database).add_package
        ⟨"a", .SemVer 1 0 0, .Manual, []⟩).names.Nodup) := by
  constructor
  · simp [DB.Database.names]
  · simp [DB.Database.add_package, DB.Database.names]

/-- C2 amended: PackageList.install and PackageList.synchronize
preserve pairwise-distinct package names for every input, while
Database.add_package preserves them only under the extra hypothesis
that the added name is not already in the store (the source pushes
unconditionally). -/
theorem store_names_distinct_preserved :
    (∀ (pl : PackageList) (ns : List String),
        (pl.cache.map Package.name).Nodup →
        ((pl.install ns).1.cache.map Package.name).Nodup) ∧
    (∀ (pl : PackageList) (a : Option Action),
        (pl.cache.map Package.name).Nodup →
        ((pl.synchronize a).1.cache.map Package.name).Nodup) ∧
    (∀ (db : DB.Database) (p : DB.Package),
        db.names.Nodup → p.name ∉ db.names →
        (db.add_package p).names.Nodup) := by
  refine ⟨?_, ?_, add_package_nodup⟩
  · intro pl ns h
    exact foldl_installOne_nodup ns { pl with invalidated := true } h
  · intro pl a h
    exact foldl_syncOne_nodup default_packages { pl with invalidated := true } h

/-- C2 witness: adding a genuinely new name to the empty store keeps
names distinct. -/
theorem store_names_distinct_preserved_witness :
    ((Mix.DB.Database.new_empty "cache").add_package
      ⟨"a", .Unknown, .Uninstalled, []⟩).names.Nodup :=
  store_names_distinct_preserved.2.2 (Mix.DB.Database.new_empty "cache")
    ⟨"a", .Unknown, .Uninstalled, []⟩ (by simp [Mix.DB.Database.names, Mix.DB.Database.new_empty])
    (by simp [Mix.DB.Database.names, Mix.DB.Database.new_empty])

end DistinctNames

section RemoveFrame

open Mix Mix.PL

theorem removeOne_map_name (pl : PackageList) (n : String) :
    (removeOne pl n).cache.map Package.name = pl.cache.map Package.name := by
  cases hg : pl.get_package n with
  | some p =>
      rw [removeOne_found pl n p hg]
      exact setFirstState_map_name _ _ _
  | none => rw [removeOne_missing pl n hg]

theorem foldl_removeOne_map_name (ns : List String) (pl : PackageList) :
    ((ns.foldl removeOne pl).cache.map Package.name) = pl.cache.map Package.name := by
  induction ns generalizing pl with
  | nil => rfl
  | cons n ns ih => rw [List.foldl_cons, ih, removeOne_map_name]

theorem removeOne_get? (pl : PackageList) (n : String) (i : Nat) :
    (removeOne pl n).cache.get? i = pl.cache.get? i ∨
      ∃ p, pl.cache.get? i = some p ∧ p.name = n ∧
        (removeOne pl n).cache.get? i = some { p with install_state := .NotInstalled } := by
  cases hg : pl.get_package n with
  | some p =>
      rw [removeOne_found pl n p hg]
      exact setFirstState_get? pl.cache n _ i
  | none =>
      rw [removeOne_missing pl n hg]
      exact Or.inl rfl

theorem foldl_removeOne_get? (ns : List String) (pl : PackageList) (i : Nat) :
    (ns.foldl removeOne pl).cache.get? i = pl.cache.get? i ∨
      ∃ p, pl.cache.get? i = some p ∧ p.name ∈ ns ∧
        (ns.foldl removeOne pl).cache.get? i =
          some { p with install_state := .NotInstalled } := by
  induction ns generalizing pl with
  | nil => exact Or.inl rfl
  | cons n ns ih =>
      rw [List.foldl_cons]
      rcases removeOne_get? pl n i with h1 | ⟨p, hp1, hpn, hp2⟩
      · rcases ih (removeOne pl n) with h2 | ⟨q, hq1, hqn, hq2⟩
        · exact Or.inl (h2.trans h1)
        · exact Or.inr ⟨q, h1 ▸ hq1, List.mem_cons_of_mem _ hqn, hq2⟩
      · rcases ih (removeOne pl n) with h2 | ⟨q, hq1, hqn, hq2⟩
        · exact Or.inr ⟨p, hp1, by rw [hpn]; exact List.mem_cons_self _ _,
            h2.trans hp2⟩
        · rw [hp2] at hq1
          injection hq1 with hq
          subst hq
          exact Or.inr ⟨p, hp1, by rw [hpn]; exact List.mem_cons_self _ _, hq2⟩

theorem removeOne_keeps_marked (pl : PackageList) (k n : String) (p : Package)
    (h : pl.get_package n = some { p with install_state := .NotInstalled }) :
    (removeOne pl k).get_package n = some { p with install_state := .NotInstalled } := by
  by_cases hk : n = k
  · subst hk
    rw [removeOne_found pl n _ h]
    exact setFirstState_find_self pl.cache n .NotInstalled
      { p with install_state := .NotInstalled } h
  · cases hg : pl.get_package k with
    | none =>
        rw [removeOne_missing pl k hg]
        exact h
    | some q =>
        rw [removeOne_found pl k q hg]
        show (setFirstState pl.cache k .NotInstalled).find? (fun x => x.name == n) = _
        rw [setFirstState_find_other pl.cache k _ n hk]
        exact h

theorem foldl_removeOne_keeps_marked (ms : List String) (pl : PackageList)
    (n : String) (p : Package)
    (h : pl.get_package n = some { p with install_state := .NotInstalled }) :
    (ms.foldl removeOne pl).get_package n =
      some { p with install_state := .NotInstalled } := by
  induction ms generalizing pl with
  | nil => exact h
  | cons k ks ih => exact ih _ (removeOne_keeps_marked pl k n p h)

theorem foldl_removeOne_marks (ns : List String) (pl : PackageList) :
    ∀ n ∈ ns, ∀ p, pl.get_package n = some p →
      (ns.foldl removeOne pl).get_package n =
        some { p with install_state := .NotInstalled } := by
  induction ns generalizing pl with
  | nil =>
      intro n hn
      cases hn
  | cons m ms ih =>
      intro n hn p hp
      rw [List.foldl_cons]
      by_cases hnm : n = m
      · subst hnm
        have h1 : (removeOne pl n).get_package n =
            some { p with install_state := .NotInstalled } := by
          rw [removeOne_found pl n p hp]
          exact setFirstState_find_self pl.cache n .NotInstalled p hp
        exact foldl_removeOne_keeps_marked ms _ n p h1
      · have hmem : n ∈ ms := by
          cases hn with
          | head => exact absurd rfl hnm
          | tail _ hmem2 => exact hmem2
        have h1 : (removeOne pl m).get_package n = some p := by
          cases hg : pl.get_package m with
          | none =>
              rw [removeOne_missing pl m hg]
              exact hp
          | some q =>
              rw [removeOne_found pl m q hg]
              show (setFirstState pl.cache m .NotInstalled).find?
                  (fun x => x.name == n) = _
              rw [setFirstState_find_other pl.cache m _ n hnm]
              exact hp
        exact ih (removeOne pl m) n hmem p h1

end RemoveFrame

section HandleOperation

open Mix Mix.DB

theorem updateAt_get? {α : Type} (l : List α) (j : Nat) (f : α → α) (i : Nat) :
    (updateAt l j f).get? i = if i = j then (l.get? i).map f else l.get? i := by
  induction l generalizing i j with
  | nil =>
      show (List.nil.get? i : Option α) = _
      cases i <;> (split <;> rfl)
  | cons a as ih =>
      cases j with
      | zero =>
          cases i with
          | zero => simp [updateAt]
          | succ i2 => simp [updateAt]
      | succ j2 =>
          cases i with
          | zero => simp [updateAt]
          | succ i2 =>
              show (updateAt as j2 f).get? i2 = _
              rw [ih]
              simp [Nat.succ_inj]

theorem updateAt_map_name (l : List Package) (j : Nat) (f : Package → Package)
    (hf : ∀ p, (f p).name = p.name) :
    (updateAt l j f).map Package.name = l.map Package.name := by
  induction l generalizing j with
  | nil => rfl
  | cons a as ih =>
      cases j with
      | zero => simp [updateAt, hf]
      | succ j2 => simp [updateAt, ih]

theorem applyStep_remove_get? (acc : Database × List Package) (j i : Nat) :
    ((applyStep Package.removePkg acc j).1.packages.get? i = acc.1.packages.get? i) ∨
    ∃ p, acc.1.packages.get? i = some p ∧
      (applyStep Package.removePkg acc j).1.packages.get? i =
        some { p with state := .Uninstalled } := by
  unfold applyStep
  cases hg : acc.1.packages.get? j with
  | none => exact Or.inl rfl
  | some p =>
      by_cases hij : i = j
      · subst hij
        right
        refine ⟨p, hg, ?_⟩
        show (updateAt acc.1.packages i Package.removePkg).get? i = _
        rw [updateAt_get?, if_pos rfl, hg]
        rfl
      · left
        show (updateAt acc.1.packages j Package.removePkg).get? i = _
        rw [updateAt_get?, if_neg hij]

theorem foldl_applyStep_remove_get? (idxs : List Nat)
    (acc : Database × List Package) (i : Nat) :
    ((idxs.foldl (applyStep Package.removePkg) acc).1.packages.get? i =
        acc.1.packages.get? i) ∨
    ∃ p, acc.1.packages.get? i = some p ∧
      (idxs.foldl (applyStep Package.removePkg) acc).1.packages.get? i =
        some { p with state := .Uninstalled } := by
  induction idxs generalizing acc with
  | nil => exact Or.inl rfl
  | cons j js ih =>
      rw [List.foldl_cons]
      rcases applyStep_remove_get? acc j i with h1 | ⟨p, hp1, hp2⟩
      · rcases ih (applyStep Package.removePkg acc j) with h2 | ⟨q, hq1, hq2⟩
        · exact Or.inl (h2.trans h1)
        · exact Or.inr ⟨q, h1 ▸ hq1, hq2⟩
      · rcases ih (applyStep Package.removePkg acc j) with h2 | ⟨q, hq1, hq2⟩
        · exact Or.inr ⟨p, hp1, h2.trans hp2⟩
        · rw [hp2] at hq1
          injection hq1 with hq
          subst hq
          exact Or.inr ⟨p, hp1, hq2⟩

theorem applyStep_remove_names (acc : Database × List Package) (j : Nat) :
    (applyStep Package.removePkg acc j).1.names = acc.1.names := by
  unfold applyStep
  cases hg : acc.1.packages.get? j with
  | none => rfl
  | some p =>
      show Database.names _ = _
      unfold Database.names
      exact updateAt_map_name acc.1.packages j Package.removePkg (fun _ => rfl)

theorem foldl_applyStep_remove_names (idxs : List Nat)
    (acc : Database × List Package) :
    (idxs.foldl (applyStep Package.removePkg) acc).1.names = acc.1.names := by
  induction idxs generalizing acc with
  | nil => rfl
  | cons j js ih => rw [List.foldl_cons, ih, applyStep_remove_names]

theorem handle_remove_reduce (db : Database) (ns : List String)
    (confirm : Except MixError Bool) :
    Database.handle_operation db (.Remove ns) confirm =
      (match select_from_names ns db with
        | .NotFound _ => none
        | .Results idxs =>
            match confirm with
            | .error e => some ⟨db, [], .error e⟩
            | .ok false => some ⟨db, [], .ok ()⟩
            | .ok true =>
                some ⟨(idxs.foldl (applyStep Package.removePkg) (db, [])).1,
                  (idxs.foldl (applyStep Package.removePkg) (db, [])).2, .ok ()⟩) := rfl

theorem handle_install_reduce (db : Database) (ns : List String)
    (confirm : Except MixError Bool) :
    Database.handle_operation db (.Install ns) confirm =
      (match select_from_names ns db with
        | .NotFound _ => none
        | .Results idxs =>
            match confirm with
            | .error e => some ⟨db, [], .error e⟩
            | .ok false => some ⟨db, [], .ok ()⟩
            | .ok true =>
                some ⟨(idxs.foldl
                    (applyStep (fun q => (q.mark_as_manually_installed).installPkg))
                    (db, [])).1,
                  (idxs.foldl
                    (applyStep (fun q => (q.mark_as_manually_installed).installPkg))
                    (db, [])).2, .ok ()⟩) := rfl

theorem handle_update_reduce (db : Database) (packages : Option (List String))
    (confirm : Except MixError Bool) :
    Database.handle_operation db (.Update packages) confirm =
      (match (match packages with
              | some packages => select_from_names packages db
              | none => all_packages db) with
        | .NotFound _ => none
        | .Results idxs =>
            match confirm with
            | .error e => some ⟨db, [], .error e⟩
            | .ok false => some ⟨db, [], .error .aborted⟩
            | .ok true =>
                some ⟨(idxs.foldl (applyStep Package.updatePkg) (db, [])).1,
                  (idxs.foldl (applyStep Package.updatePkg) (db, [])).2, .ok ()⟩) := rfl

/-- C4: the remove operation never deletes a package.  In the
PackageList generation, remove returns Ok, preserves the name list and
the store size, transitions each resolved named package to NotInstalled
and leaves every package either completely untouched or, when its name
was requested, changed only in its installation state.  In the
Database generation, whenever handle_operation on a Remove returns at
all, the store names are preserved and every package is either
untouched or changed only by the transition of its state to
Uninstalled. -/
theorem remove_never_deletes :
    (∀ (pl : PL.PackageList) (ns : List String),
       (pl.remove ns).2 = .ok () ∧
       (pl.remove ns).1.cache.map PL.Package.name = pl.cache.map PL.Package.name ∧
       (pl.remove ns).1.cache.length = pl.cache.length ∧
       (∀ n ∈ ns, ∀ p, pl.get_package n = some p →
          (pl.remove ns).1.get_package n =
            some { p with install_state := .NotInstalled }) ∧
       (∀ i, (pl.remove ns).1.cache.get? i = pl.cache.get? i ∨
          ∃ p, pl.cache.get? i = some p ∧ p.name ∈ ns ∧
            (pl.remove ns).1.cache.get? i =
              some { p with install_state := .NotInstalled })) ∧
    (∀ (db : Database) (ns : List String) (confirm : Except MixError Bool)
        (r : RunResult),
       db.handle_operation (.Remove ns) confirm = some r →
       r.db.names = db.names ∧
       (∀ i, r.db.packages.get? i = db.packages.get? i ∨
          ∃ p, db.packages.get? i = some p ∧
            r.db.packages.get? i = some { p with state := .Uninstalled })) := by
  constructor
  · intro pl ns
    refine ⟨rfl, foldl_removeOne_map_name ns _, ?_, ?_, ?_⟩
    · have h := congrArg List.length (foldl_removeOne_map_name ns
        { pl with invalidated := true })
      simpa using h
    · intro n hn p hp
      exact foldl_removeOne_marks ns { pl with invalidated := true } n hn p hp
    · intro i
      exact foldl_removeOne_get? ns { pl with invalidated := true } i
  · intro db ns confirm r h
    rw [handle_remove_reduce] at h
    cases hs : select_from_names ns db with
    | NotFound l =>
        rw [hs] at h
        cases h
    | Results idxs =>
        rw [hs] at h
        cases confirm with
        | error e =>
            cases h
            exact ⟨rfl, fun i => Or.inl rfl⟩
        | ok b =>
            cases b with
            | false =>
                cases h
                exact ⟨rfl, fun i => Or.inl rfl⟩
            | true =>
                cases h
                refine ⟨foldl_applyStep_remove_names idxs (db, []), ?_⟩
                intro i
                exact foldl_applyStep_remove_get? idxs (db, []) i

/-- C4 witness: removing a present package transitions exactly its
state and keeps the store names. -/
theorem remove_never_deletes_witness :
    ((⟨"mix.db", [⟨.ManuallyInstalled, "a"⟩], false⟩ : PL.PackageList).remove
        ["a"]).1.get_package "a" = some ⟨.NotInstalled, "a"⟩ :=
  (remove_never_deletes.1 ⟨"mix.db", [⟨.ManuallyInstalled, "a"⟩], false⟩
      ["a"]).2.2.2.1 "a" (by simp) ⟨.ManuallyInstalled, "a"⟩ rfl

end HandleOperation

section Decline

open Mix Mix.DB

/-- The operations whose handle_operation arm consults the confirmation
callback before mutating: Install, Remove and Update. -/
def requiresConfirmation : Operation → Bool
  | .Install _ => true
  | .Remove _ => true
  | .Update _ => true
  | _ => false

/-- C7: when the confirmation callback answers false on an operation
that requires confirmation, handle_operation leaves the database
exactly as it was (every package, every field) and never invokes the
per-package progress callback. -/
theorem decline_is_noop (db : Database) (op : Operation) (r : RunResult)
    (hop : requiresConfirmation op = true)
    (h : db.handle_operation op (.ok false) = some r) :
    r.db = db ∧ r.progress = [] := by
  cases op with
  | Install ns =>
      rw [handle_install_reduce] at h
      cases hs : select_from_names ns db with
      | NotFound l =>
          rw [hs] at h
          cases h
      | Results idxs =>
          rw [hs] at h
          cases h
          exact ⟨rfl, rfl⟩
  | Remove ns =>
      rw [handle_remove_reduce] at h
      cases hs : select_from_names ns db with
      | NotFound l =>
          rw [hs] at h
          cases h
      | Results idxs =>
          rw [hs] at h
          cases h
          exact ⟨rfl, rfl⟩
  | Update packages =>
      rw [handle_update_reduce] at h
      cases hs : (match packages with
          | some packages => select_from_names packages db
          | none => all_packages db) with
      | NotFound l =>
          rw [hs] at h
          cases h
      | Results idxs =>
          rw [hs] at h
          cases h
          exact ⟨rfl, rfl⟩
  | Synchronize => exact Bool.noConfusion hop
  | Fetch ns => exact Bool.noConfusion hop
  | List => exact Bool.noConfusion hop

/-- C7 witness: declining an install of a resolvable name returns the
database untouched with an empty progress log. -/
theorem decline_is_noop_witness :
    (⟨⟨[⟨"a", .Unknown, .Uninstalled, []⟩], "c"⟩, [], Except.ok ()⟩ : RunResult).db =
      (⟨[⟨"a", .Unknown, .Uninstalled, []⟩], "c"⟩ : Database) ∧
    (⟨⟨[⟨"a", .Unknown, .Uninstalled, []⟩], "c"⟩, [],
        Except.ok ()⟩ : RunResult).progress = [] :=
  decline_is_noop ⟨[⟨"a", .Unknown, .Uninstalled, []⟩], "c"⟩ (.Install ["a"])
    ⟨⟨[⟨"a", .Unknown, .Uninstalled, []⟩], "c"⟩, [], .ok ()⟩ rfl (by rfl)

end Decline

section InstallMarks

open Mix Mix.PL

theorem pl_get_package_name (pl : PackageList) (n : String) (p : Package)
    (h : pl.get_package n = some p) : p.name = n := by
  unfold PackageList.get_package at h
  simpa using List.find?_some h

theorem installOne_get_self (pl : PackageList) (n : String) :
    ∃ p, (installOne pl n).get_package n = some p ∧
      p.install_state = .ManuallyInstalled ∧ p.name = n := by
  cases hg : pl.get_package n with
  | some p =>
      rw [installOne_found pl n p hg]
      refine ⟨{ p with install_state := .ManuallyInstalled }, ?_, rfl,
        pl_get_package_name pl n p hg⟩
      exact setFirstState_find_self pl.cache n .ManuallyInstalled p hg
  | none =>
      rw [installOne_new pl n hg]
      refine ⟨⟨.ManuallyInstalled, n⟩, ?_, rfl, rfl⟩
      show (pl.cache ++ [(⟨.ManuallyInstalled, n⟩ : Package)]).find?
          (fun q => q.name == n) = _
      rw [List.find?_append]
      have hcache : pl.cache.find? (fun q => q.name == n) = none := hg
      rw [hcache, Option.none_or]
      exact @List.find?_cons_of_pos _ (fun q : Package => q.name == n)
        ⟨.ManuallyInstalled, n⟩ [] (by simp)

theorem installOne_keeps_manual (pl : PackageList) (k n : String)
    (h : ∃ p, pl.get_package n = some p ∧
      p.install_state = .ManuallyInstalled ∧ p.name = n) :
    ∃ p, (installOne pl k).get_package n = some p ∧
      p.install_state = .ManuallyInstalled ∧ p.name = n := by
  obtain ⟨p, hp, hstate, hname⟩ := h
  by_cases hk : n = k
  · subst hk
    rw [installOne_found pl n p hp]
    refine ⟨{ p with install_state := .ManuallyInstalled }, ?_, rfl, hname⟩
    exact setFirstState_find_self pl.cache n .ManuallyInstalled p hp
  · cases hg : pl.get_package k with
    | some q =>
        rw [installOne_found pl k q hg]
        refine ⟨p, ?_, hstate, hname⟩
        show (setFirstState pl.cache k .ManuallyInstalled).find?
            (fun x => x.name == n) = _
        rw [setFirstState_find_other pl.cache k _ n hk]
        exact hp
    | none =>
        rw [installOne_new pl k hg]
        refine ⟨p, ?_, hstate, hname⟩
        show (pl.cache ++ [(⟨.ManuallyInstalled, k⟩ : Package)]).find?
            (fun q => q.name == n) = _
        rw [List.find?_append]
        have hcache : pl.cache.find? (fun q => q.name == n) = some p := hp
        rw [hcache]
        rfl

theorem foldl_installOne_keeps_manual (ms : List String) (pl : PackageList)
    (n : String)
    (h : ∃ p, pl.get_package n = some p ∧
      p.install_state = .ManuallyInstalled ∧ p.name = n) :
    ∃ p, (ms.foldl installOne pl).get_package n = some p ∧
      p.install_state = .ManuallyInstalled ∧ p.name = n := by
  induction ms generalizing pl with
  | nil => exact h
  | cons k ks ih => exact ih _ (installOne_keeps_manual pl k n h)

theorem foldl_installOne_marks (ns : List String) (pl : PackageList) :
    ∀ n ∈ ns, ∃ p, (ns.foldl installOne pl).get_package n = some p ∧
      p.install_state = .ManuallyInstalled ∧ p.name = n := by
  induction ns generalizing pl with
  | nil =>
      intro n hn
      cases hn
  | cons m ms ih =>
      intro n hn
      rw [List.foldl_cons]
      cases hn with
      | head =>
          exact foldl_installOne_keeps_manual ms _ m (installOne_get_self pl m)
      | tail _ hmem => exact ih (installOne pl m) n hmem

theorem installOne_map_found (pl : PackageList) (n : String) (p : Package)
    (h : pl.get_package n = some p) :
    (installOne pl n).cache.map Package.name = pl.cache.map Package.name := by
  rw [installOne_found pl n p h]
  exact setFirstState_map_name _ _ _

theorem installOne_map_new (pl : PackageList) (n : String)
    (h : pl.get_package n = none) :
    (installOne pl n).cache.map Package.name =
      pl.cache.map Package.name ++ [n] := by
  rw [installOne_new pl n h]
  show ((pl.cache ++ [(⟨.ManuallyInstalled, n⟩ : Package)]).map Package.name) = _
  rw [List.map_append]
  rfl

theorem installOne_get_none (pl : PackageList) (k m : String)
    (h : (installOne pl k).get_package m = none) : pl.get_package m = none := by
  cases hg : pl.get_package k with
  | some q =>
      rw [installOne_found pl k q hg] at h
      by_cases hmk : m = k
      · subst hmk
        have hself := setFirstState_find_self pl.cache m .ManuallyInstalled q hg
        have h2 : (setFirstState pl.cache m .ManuallyInstalled).find?
            (fun x => x.name == m) = none := h
        rw [hself] at h2
        cases h2
      · have h2 : (setFirstState pl.cache k .ManuallyInstalled).find?
            (fun x => x.name == m) = none := h
        rw [setFirstState_find_other pl.cache k _ m hmk] at h2
        exact h2
  | none =>
      rw [installOne_new pl k hg] at h
      have h2 : (pl.cache ++ [(⟨.ManuallyInstalled, k⟩ : Package)]).find?
          (fun q => q.name == m) = none := h
      rw [List.find?_append] at h2
      cases hc : pl.cache.find? (fun q => q.name == m) with
      | none => exact hc
      | some p =>
          rw [hc] at h2
          cases h2

theorem foldl_installOne_extra (ns : List String) (pl : PackageList) :
    ∃ extra, (ns.foldl installOne pl).cache.map Package.name =
        pl.cache.map Package.name ++ extra ∧
      ∀ m ∈ extra, m ∈ ns ∧ pl.get_package m = none := by
  induction ns generalizing pl with
  | nil =>
      refine ⟨[], by simp, ?_⟩
      intro m hm
      cases hm
  | cons k ks ih =>
      rw [List.foldl_cons]
      obtain ⟨extra, hmap, hprop⟩ := ih (installOne pl k)
      cases hg : pl.get_package k with
      | some p =>
          refine ⟨extra, ?_, ?_⟩
          · rw [hmap, installOne_map_found pl k p hg]
          · intro m hm
            obtain ⟨hmks, hmnone⟩ := hprop m hm
            exact ⟨List.mem_cons_of_mem _ hmks, installOne_get_none pl k m hmnone⟩
      | none =>
          refine ⟨k :: extra, ?_, ?_⟩
          · rw [hmap, installOne_map_new pl k hg]
            simp
          · intro m hm
            cases hm with
            | head => exact ⟨List.mem_cons_self _ _, hg⟩
            | tail _ hmem =>
                obtain ⟨hmks, hmnone⟩ := hprop m hmem
                exact ⟨List.mem_cons_of_mem _ hmks,
                  installOne_get_none pl k m hmnone⟩

/-- C5: install always returns Ok; afterwards every requested name
resolves to a package in ManuallyInstalled state carrying that name;
and the store is the original store (names in place, in order) extended
at the end by exactly the requested names that did not previously
resolve. -/
theorem install_marks_manual (pl : PackageList) (ns : List String) :
    (pl.install ns).2 = .ok () ∧
    (∀ n ∈ ns, ∃ p, (pl.install ns).1.get_package n = some p ∧
       p.install_state = .ManuallyInstalled ∧ p.name = n) ∧
    (∃ extra, (pl.install ns).1.cache.map Package.name =
       pl.cache.map Package.name ++ extra ∧
       ∀ m ∈ extra, m ∈ ns ∧ pl.get_package m = none) := by
  refine ⟨rfl, ?_, ?_⟩
  · intro n hn
    exact foldl_installOne_marks ns { pl with invalidated := true } n hn
  · exact foldl_installOne_extra ns { pl with invalidated := true }

/-- C5 witness: installing a fresh name into an empty store yields a
manually installed package of that name. -/
theorem install_marks_manual_witness :
    ∃ p, ((⟨"mix.db", [], false⟩ : PackageList).install ["a"]).1.get_package "a" =
        some p ∧ p.install_state = .ManuallyInstalled ∧ p.name = "a" :=
  (install_marks_manual ⟨"mix.db", [], false⟩ ["a"]).2.1 "a" (by simp)

end InstallMarks
